import Mathlib

/-!
Verification of the scope-vfx effect library.

The library applies three per-frame visual effects to batches of video
frames stored as floating-point tensors of shape (T, H, W, C):

* `chromatic_aberration` (src/scope_vfx/effects/chromatic.py): integer
  toroidal roll of the red and blue channels in opposite directions;
* `vhs_retro` (src/scope_vfx/effects/vhs.py): multiplicative scan-line
  mask, additive grain, and a per-row horizontal tracking distortion fed
  through bilinear grid sampling;
* `warhol` (src/scope_vfx/effects/warhol.py): Gaussian pre-blur, Sobel
  ink-edge mask, luminance posterization and palette remap.

The shallow embedding models a frame batch as a total function from
(frame, row, column, channel) indices to real pixel values; the intended
shape (T, H, W, C) is passed alongside where the code needs it.  Tensor
arithmetic is modelled pointwise over `ℝ`; the analog-noise tensor drawn
by `torch.randn_like` is passed in as an explicit `grain` argument.
-/

/-- A batch of video frames: frame, row, column, channel ↦ pixel value.
The region of interest is `t < T`, `y < H`, `x < W`, `c < C`. -/
def Batch : Type := ℕ → ℕ → ℕ → ℕ → ℝ

/-- Final range clamp `tensor.clamp(0, 1)` applied pointwise. -/
noncomputable def clamp01 (x : ℝ) : ℝ := max 0 (min 1 x)

/-- Python `int(x)` on a float: truncation toward zero. -/
noncomputable def intTrunc (x : ℝ) : ℤ := if 0 ≤ x then ⌊x⌋ else -⌊-x⌋

/-- Rounding half to even, the behaviour of Python `round` and
`torch.round` on exact halves; elsewhere ordinary nearest rounding. -/
noncomputable def roundHalfEven (x : ℝ) : ℤ :=
  if x - ⌊x⌋ = 1/2 then (if ⌊x⌋ % 2 = 0 then ⌊x⌋ else ⌊x⌋ + 1) else round x

/-- Python `math.radians`: degrees to radians. -/
noncomputable def radians (d : ℝ) : ℝ := d * (Real.pi / 180)

/-- Wraparound index for `torch.roll`: reduce an integer position into
`[0, n)` by the mathematical (always nonnegative) remainder. -/
def rollIdx (n : ℕ) (a : ℤ) : ℕ := (a % (n : ℤ)).toNat

/-- The channel displacement performed by `chromatic_aberration` once the
integer shifts `(dy, dx)` are fixed: `torch.roll` of channel 0 by
`(dy, dx)` and of channel 2 by `(-dy, -dx)` along the spatial axes
(dims 1 and 2), channel 1 untouched.  `torch.roll` moves the element at
index `i` to index `i + shift (mod size)`, so the output at `(y, x)`
reads the input at `(y - dy, x - dx)` modulo the extent. -/
def displaceRoll (H W : ℕ) (frames : Batch) (dy dx : ℤ) : Batch :=
  fun t y x c =>
    if c = 0 then frames t (rollIdx H ((y : ℤ) - dy)) (rollIdx W ((x : ℤ) - dx)) 0
    else if c = 2 then frames t (rollIdx H ((y : ℤ) + dy)) (rollIdx W ((x : ℤ) + dx)) 2
    else frames t y x c

/-- `chromatic_aberration` from src/scope_vfx/effects/chromatic.py.
Early-outs return the input batch itself; otherwise the red and blue
channels are rolled in opposite directions. -/
noncomputable def chromatic_aberration (H W : ℕ) (frames : Batch)
    (intensity angle : ℝ) : Batch :=
  if intensity ≤ 0 then frames
  else
    let max_shift : ℤ := intTrunc (intensity * 20)
    if max_shift = 0 then frames
    else
      let rad : ℝ := radians angle
      let dx : ℤ := roundHalfEven ((max_shift : ℝ) * Real.cos rad)
      let dy : ℤ := roundHalfEven ((max_shift : ℝ) * Real.sin rad)
      if dx = 0 ∧ dy = 0 then frames
      else displaceRoll H W frames dy dx

/-! Helper lemmas about the wraparound index. -/

theorem rollIdx_coe (n : ℕ) (hn : 0 < n) (a : ℤ) :
    ((rollIdx n a : ℕ) : ℤ) = a % (n : ℤ) := by
  have hne : (n : ℤ) ≠ 0 := by exact_mod_cast hn.ne'
  exact Int.toNat_of_nonneg (Int.emod_nonneg a hne)

theorem rollIdx_of_lt (n a : ℕ) (h : a < n) : rollIdx n a = a := by
  unfold rollIdx
  rw [Int.emod_eq_of_lt (by positivity) (by exact_mod_cast h)]
  exact Int.toNat_natCast a

theorem emod_sub_cancel_left (a b n : ℤ) : (a % n - b) % n = (a - b) % n := by
  rw [Int.sub_emod (a % n) b n, Int.emod_emod_of_dvd a dvd_rfl, ← Int.sub_emod]

theorem emod_add_cancel_left (a b n : ℤ) : (a % n + b) % n = (a + b) % n := by
  rw [Int.add_emod (a % n) b n, Int.emod_emod_of_dvd a dvd_rfl, ← Int.add_emod]

theorem rollIdx_shift_sub (n : ℕ) (hn : 0 < n) (a b : ℤ) :
    rollIdx n ((rollIdx n (a + b) : ℕ) - b) = rollIdx n a := by
  rw [rollIdx_coe n hn]
  unfold rollIdx
  rw [emod_sub_cancel_left, add_sub_cancel_right]

theorem rollIdx_shift_add (n : ℕ) (hn : 0 < n) (a b : ℤ) :
    rollIdx n ((rollIdx n (a - b) : ℕ) + b) = rollIdx n a := by
  rw [rollIdx_coe n hn]
  unfold rollIdx
  rw [emod_add_cancel_left, sub_add_cancel]

/-- The effect either aliases its input batch or is a channel roll. -/
theorem chromatic_cases (H W : ℕ) (frames : Batch) (intensity angle : ℝ) :
    chromatic_aberration H W frames intensity angle = frames ∨
      ∃ dy dx, chromatic_aberration H W frames intensity angle
        = displaceRoll H W frames dy dx := by
  simp only [chromatic_aberration]
  split_ifs
  · exact Or.inl rfl
  · exact Or.inl rfl
  · exact Or.inl rfl
  · exact Or.inr ⟨_, _, rfl⟩

/-- C4: displacing by `(dy, dx)` on red / `(-dy, -dx)` on blue and then
re-applying the displacement with negated shifts restores every in-range
pixel of every channel exactly: the toroidal roll is a bijection on
pixel positions. -/
theorem displaceRoll_inverse (H W : ℕ) (frames : Batch) (dy dx : ℤ)
    (t y x c : ℕ) (hy : y < H) (hx : x < W) :
    displaceRoll H W (displaceRoll H W frames dy dx) (-dy) (-dx) t y x c
      = frames t y x c := by
  have hH : 0 < H := Nat.lt_of_le_of_lt (Nat.zero_le y) hy
  have hW : 0 < W := Nat.lt_of_le_of_lt (Nat.zero_le x) hx
  rcases eq_or_ne c 0 with hc0 | hc0
  · subst hc0
    show frames t (rollIdx H ((rollIdx H ((y : ℤ) - -dy) : ℕ) - dy))
        (rollIdx W ((rollIdx W ((x : ℤ) - -dx) : ℕ) - dx)) 0 = frames t y x 0
    rw [sub_neg_eq_add, sub_neg_eq_add, rollIdx_shift_sub H hH, rollIdx_shift_sub W hW,
      rollIdx_of_lt H y hy, rollIdx_of_lt W x hx]
  · rcases eq_or_ne c 2 with hc2 | hc2
    · subst hc2
      show frames t (rollIdx H ((rollIdx H ((y : ℤ) + -dy) : ℕ) + dy))
          (rollIdx W ((rollIdx W ((x : ℤ) + -dx) : ℕ) + dx)) 2 = frames t y x 2
      rw [← sub_eq_add_neg, ← sub_eq_add_neg, rollIdx_shift_add H hH, rollIdx_shift_add W hW,
        rollIdx_of_lt H y hy, rollIdx_of_lt W x hx]
    · simp only [displaceRoll, if_neg hc0, if_neg hc2]

/-- A concrete batch with pairwise-distinct pixel values, used by the
witness theorems. -/
def exBatch : Batch := fun t y x c => (t : ℝ) + 2 * y + 3 * x + 5 * c

/-- Witness for C4 at a concrete batch, shape and shift. -/
theorem displaceRoll_inverse_witness :
    (1 : ℕ) < 2 ∧ (1 : ℕ) < 3 ∧
      displaceRoll 2 3 (displaceRoll 2 3 exBatch 1 2) (-1) (-2) 0 1 1 0
        = exBatch 0 1 1 0 :=
  ⟨by norm_num, by norm_num,
   displaceRoll_inverse 2 3 exBatch 1 2 0 1 1 0 (by norm_num) (by norm_num)⟩

/-- C3: the effect is the identity when the truncated shift magnitude is
zero or when both rounded shift components vanish. -/
theorem chromatic_identity (H W : ℕ) (frames : Batch) (intensity angle : ℝ)
    (h : ⌊intensity * 20⌋ = 0 ∨
      (roundHalfEven ((⌊intensity * 20⌋ : ℝ) * Real.cos (radians angle)) = 0 ∧
       roundHalfEven ((⌊intensity * 20⌋ : ℝ) * Real.sin (radians angle)) = 0)) :
    chromatic_aberration H W frames intensity angle = frames := by
  unfold chromatic_aberration
  by_cases hle : intensity ≤ 0
  · rw [if_pos hle]
  · rw [if_neg hle]
    push_neg at hle
    have htr : intTrunc (intensity * 20) = ⌊intensity * 20⌋ := by
      unfold intTrunc
      rw [if_pos (by positivity)]
    simp only [htr]
    rcases h with h0 | ⟨hdx, hdy⟩
    · rw [if_pos h0]
    · by_cases hms : ⌊intensity * 20⌋ = 0
      · rw [if_pos hms]
      · rw [if_neg hms, if_pos ⟨hdx, hdy⟩]

/-- Witness for C3 at intensity 0. -/
theorem chromatic_identity_witness :
    (⌊(0 : ℝ) * 20⌋ = 0 ∨
      (roundHalfEven ((⌊(0 : ℝ) * 20⌋ : ℝ) * Real.cos (radians 0)) = 0 ∧
       roundHalfEven ((⌊(0 : ℝ) * 20⌋ : ℝ) * Real.sin (radians 0)) = 0)) ∧
      chromatic_aberration 4 4 (fun _ _ _ _ => (1 : ℝ)) 0 0 = fun _ _ _ _ => (1 : ℝ) :=
  ⟨Or.inl (by norm_num),
   chromatic_identity 4 4 (fun _ _ _ _ => (1 : ℝ)) 0 0 (Or.inl (by norm_num))⟩

/-- C9: the middle (green) channel of the output always equals the green
channel of the input, for every parameter choice and every index.  The
source never writes to its argument: it either returns `frames` itself
or builds the result from `frames.clone()`, so the caller's batch is
unchanged — in this pure embedding the input is immutable by
construction, and this theorem records the visible part of the claim. -/
theorem chromatic_green_unchanged (H W : ℕ) (frames : Batch)
    (intensity angle : ℝ) (t y x : ℕ) :
    chromatic_aberration H W frames intensity angle t y x 1 = frames t y x 1 := by
  rcases chromatic_cases H W frames intensity angle with h | ⟨dy, dx, h⟩
  · rw [h]
  · rw [h]
    simp [displaceRoll]

/-! VHS / retro CRT effect, src/scope_vfx/effects/vhs.py. -/

/-- Scan-line brightness mask of `vhs_retro`, one value per row:
`1 - intensity * 0.5 * (1 - sin(row * (count * 3.14159 / H)))`.  The
source uses the literal `3.14159`, not π. -/
noncomputable def scanMask (H count : ℕ) (si : ℝ) (r : ℕ) : ℝ :=
  1 - si * 0.5 * (1 - Real.sin ((r : ℝ) * ((count : ℝ) * 3.14159 / (H : ℝ))))

/-- `torch.linspace a b n` evaluated at index `i`: evenly spaced samples
from `a` to `b` inclusive; a single sample is `a`. -/
noncomputable def linspace (a b : ℝ) (n i : ℕ) : ℝ :=
  if n ≤ 1 then a else a + (b - a) * (i : ℝ) / ((n : ℝ) - 1)

/-- Per-row horizontal tracking offset of `vhs_retro` in normalized
coordinates: `tracking * 0.05 * sin(rows_norm * 6.2832 * 3.0)`.  The
source uses the literal `6.2832 * 3.0`, not 6π. -/
noncomputable def trackOffset (H : ℕ) (tracking : ℝ) (r : ℕ) : ℝ :=
  tracking * 0.05 * Real.sin (linspace (-1) 1 H r * 6.2832 * 3.0)

/-- Map a normalized coordinate in [-1, 1] to a pixel position with
`align_corners=True`: `(coord + 1) / 2 * (size - 1)`. -/
noncomputable def unnormalize (size : ℕ) (coord : ℝ) : ℝ :=
  (coord + 1) / 2 * ((size : ℝ) - 1)

/-- Border padding of `grid_sample`: clamp a pixel position into
`[0, size - 1]`. -/
noncomputable def borderClamp (size : ℕ) (p : ℝ) : ℝ :=
  max 0 (min ((size : ℝ) - 1) p)

/-- One output value of `torch.nn.functional.grid_sample` with
`mode="bilinear"`, `padding_mode="border"`, `align_corners=True`: the
normalized sample point `(gx, gy)` is unnormalized, clamped to the
border, and the four surrounding pixels are blended bilinearly.  After
the border clamp the two fractional weights of any out-of-range corner
are exactly zero, so reading the total function `img` there is sound. -/
noncomputable def gridSampleBilinear (H W : ℕ) (img : ℕ → ℕ → ℝ) (gx gy : ℝ) : ℝ :=
  let x := borderClamp W (unnormalize W gx)
  let y := borderClamp H (unnormalize H gy)
  let x0 : ℤ := ⌊x⌋
  let y0 : ℤ := ⌊y⌋
  let wx : ℝ := x - (x0 : ℝ)
  let wy : ℝ := y - (y0 : ℝ)
  (1 - wy) * ((1 - wx) * img y0.toNat x0.toNat + wx * img y0.toNat (x0.toNat + 1))
    + wy * ((1 - wx) * img (y0.toNat + 1) x0.toNat + wx * img (y0.toNat + 1) (x0.toNat + 1))

/-- `vhs_retro` from src/scope_vfx/effects/vhs.py.  The random tensor
drawn by `torch.randn_like` is supplied as the explicit `grain`
argument; each stage runs only when its magnitude is positive, and the
result is clamped to [0, 1]. -/
noncomputable def vhs_retro (H W : ℕ) (frames grain : Batch) (scan_line_intensity : ℝ)
    (scan_line_count : ℕ) (noise tracking : ℝ) : Batch :=
  let afterScan : Batch :=
    if 0 < scan_line_intensity ∧ 0 < scan_line_count then
      fun t y x c => frames t y x c * scanMask H scan_line_count scan_line_intensity y
    else frames
  let afterNoise : Batch :=
    if 0 < noise then
      fun t y x c => afterScan t y x c + grain t y x c * (noise * 0.15)
    else afterScan
  let afterTrack : Batch :=
    if 0 < tracking then
      fun t y x c => gridSampleBilinear H W (fun yy xx => afterNoise t yy xx c)
        (linspace (-1) 1 W x + trackOffset H tracking y) (linspace (-1) 1 H y)
    else afterNoise
  fun t y x c => clamp01 (afterTrack t y x c)

/-- Scan-line mask exactly as the specification words it, with π in
place of the source literal 3.14159: `1 - si*0.5*(1 - sin(r*count*π/H))`. -/
noncomputable def specScanMask (H count : ℕ) (si : ℝ) (r : ℕ) : ℝ :=
  1 - si * 0.5 * (1 - Real.sin ((r : ℝ) * (count : ℝ) * Real.pi / (H : ℝ)))

/-- Tracking offset exactly as the specification words it, with 6π in
place of the source literal `6.2832 * 3.0`. -/
noncomputable def specTrackOffset (H : ℕ) (tracking : ℝ) (r : ℕ) : ℝ :=
  tracking * 0.05 * Real.sin (linspace (-1) 1 H r * (6 * Real.pi))

/-- The all-ones batch. -/
def onesBatch : Batch := fun _ _ _ _ => 1

/-- The all-zeros batch. -/
def zerosBatch : Batch := fun _ _ _ _ => 0

theorem clamp01_of_mem (x : ℝ) (h0 : 0 ≤ x) (h1 : x ≤ 1) : clamp01 x = x := by
  unfold clamp01
  rw [min_eq_right h1, max_eq_right h0]

theorem sin_lit_pos : 0 < Real.sin 3.14159 := by
  apply Real.sin_pos_of_pos_of_lt_pi (by norm_num)
  have h := Real.pi_gt_d6
  linarith

/-- C1 counterexample: with H = 2, two scan lines, full intensity, and a
constant all-ones input, the pixel in row 1 differs from the value the
π-based mask of the claim predicts, because `sin 3.14159 > 0 = sin π`. -/
theorem vhs_scanline_pi_cex :
    vhs_retro 2 1 onesBatch zerosBatch 1 2 0 0 0 1 0 0
      ≠ clamp01 (onesBatch 0 1 0 0 * specScanMask 2 2 1 1) := by
  have hs := sin_lit_pos
  have hs1 : Real.sin 3.14159 ≤ 1 := Real.sin_le_one _
  have hL : vhs_retro 2 1 onesBatch zerosBatch 1 2 0 0 0 1 0 0
      = clamp01 (onesBatch 0 1 0 0 * scanMask 2 2 1 1) := by
    simp only [vhs_retro]
    rw [if_neg (lt_irrefl (0 : ℝ)), if_neg (lt_irrefl (0 : ℝ)),
      if_pos (show (0 : ℝ) < 1 ∧ (0 : ℕ) < 2 from ⟨by norm_num, by norm_num⟩)]
  have hmask : scanMask 2 2 1 1 = 0.5 + 0.5 * Real.sin 3.14159 := by
    unfold scanMask
    have harg : ((1 : ℕ) : ℝ) * (((2 : ℕ) : ℝ) * 3.14159 / ((2 : ℕ) : ℝ)) = 3.14159 := by
      norm_num
    rw [harg]
    ring
  have hspec : specScanMask 2 2 1 1 = 0.5 := by
    unfold specScanMask
    have harg : ((1 : ℕ) : ℝ) * ((2 : ℕ) : ℝ) * Real.pi / ((2 : ℕ) : ℝ) = Real.pi := by
      push_cast
      ring
    rw [harg, Real.sin_pi]
    norm_num
  rw [hL, hmask, hspec]
  have ho : onesBatch 0 1 0 0 = 1 := rfl
  rw [ho, one_mul, one_mul, clamp01_of_mem _ (by linarith) (by linarith),
    clamp01_of_mem _ (by norm_num) (by norm_num)]
  intro heq
  linarith

/-- C1 (amended): with noise and tracking zero and positive scan-line
parameters, the output is the input multiplied row-wise by the
deterministic mask `1 - si*0.5*(1 - sin(r * (count * 3.14159 / H)))` —
the same mask for every frame, column and channel — then clamped to
[0, 1].  This is the claim with the source literal 3.14159 in place of
π. -/
theorem vhs_scanline_mask (H W : ℕ) (frames grain : Batch) (si : ℝ) (count : ℕ)
    (hsi : 0 < si) (hc : 0 < count) (t y x c : ℕ) :
    vhs_retro H W frames grain si count 0 0 t y x c
      = clamp01 (frames t y x c * scanMask H count si y) := by
  simp only [vhs_retro]
  rw [if_neg (lt_irrefl (0 : ℝ)), if_neg (lt_irrefl (0 : ℝ)), if_pos ⟨hsi, hc⟩]

/-- Witness for C1 (amended) at a concrete configuration. -/
theorem vhs_scanline_mask_witness :
    (0 : ℝ) < 1 ∧ (0 : ℕ) < 2 ∧
      vhs_retro 4 4 onesBatch zerosBatch 1 2 0 0 0 1 0 0
        = clamp01 (onesBatch 0 1 0 0 * scanMask 4 2 1 1) :=
  ⟨by norm_num, by norm_num,
   vhs_scanline_mask 4 4 onesBatch zerosBatch 1 2 (by norm_num) (by norm_num) 0 1 0 0⟩

/-- C6 (amended): with scan lines and noise off and tracking positive,
every output pixel is the border-clamped bilinear resample of the input
frame at x-coordinate `x_norm + offset(row)` and unchanged y-coordinate,
with `offset(r) = tracking * 0.05 * sin(y_norm(r) * 6.2832 * 3.0)` — the
same grid for every frame and channel.  This is the claim with the
source literal `6.2832 * 3.0` in place of 6π. -/
theorem vhs_tracking_grid (H W : ℕ) (frames grain : Batch) (count : ℕ)
    (tracking : ℝ) (htr : 0 < tracking) (t y x c : ℕ) :
    vhs_retro H W frames grain 0 count 0 tracking t y x c
      = clamp01 (gridSampleBilinear H W (fun yy xx => frames t yy xx c)
          (linspace (-1) 1 W x + trackOffset H tracking y) (linspace (-1) 1 H y)) := by
  simp only [vhs_retro]
  rw [if_pos htr, if_neg (lt_irrefl (0 : ℝ)),
    if_neg (show ¬((0 : ℝ) < 0 ∧ 0 < count) from fun hco => lt_irrefl (0 : ℝ) hco.1)]

/-- Witness for C6 (amended) at a concrete configuration. -/
theorem vhs_tracking_grid_witness :
    (0 : ℝ) < 1 ∧
      vhs_retro 2 2 onesBatch zerosBatch 0 100 0 1 0 0 0 0
        = clamp01 (gridSampleBilinear 2 2 (fun yy xx => onesBatch 0 yy xx 0)
            (linspace (-1) 1 2 0 + trackOffset 2 1 0) (linspace (-1) 1 2 0)) :=
  ⟨by norm_num,
   vhs_tracking_grid 2 2 onesBatch zerosBatch 100 1 (by norm_num) 0 0 0 0⟩

/-- Counterexample batch for the tracking claim: bright in column 2,
dark elsewhere. -/
def colBatch : Batch := fun _ _ x _ => if x = 2 then 1 else 0

theorem floor_one_add (off : ℝ) (h0 : 0 ≤ off) (h1 : off < 1) : ⌊off + 1⌋ = 1 := by
  rw [Int.floor_eq_iff]
  constructor
  · push_cast
    linarith
  · push_cast
    linarith

/-- Evaluating the bilinear sampler on `colBatch` at the centre of row 1
with a small positive x-offset returns exactly the offset. -/
theorem gridSample_colBatch (off : ℝ) (h0 : 0 ≤ off) (h1 : off < 1) :
    gridSampleBilinear 2 3 (fun yy xx => colBatch 0 yy xx 0)
      (linspace (-1) 1 3 1 + off) (linspace (-1) 1 2 1) = off := by
  have hgx : linspace (-1) 1 3 1 + off = off := by
    unfold linspace
    norm_num
  have hgy : linspace (-1) 1 2 1 = 1 := by
    unfold linspace
    norm_num
  rw [hgx, hgy]
  simp only [gridSampleBilinear]
  have hux : unnormalize 3 off = off + 1 := by
    unfold unnormalize
    push_cast
    ring
  have huy : unnormalize 2 1 = 1 := by
    unfold unnormalize
    push_cast
    norm_num
  rw [hux, huy]
  have hbx : borderClamp 3 (off + 1) = off + 1 := by
    unfold borderClamp
    rw [min_eq_right (by push_cast; linarith), max_eq_right (by linarith)]
  have hby : borderClamp 2 1 = 1 := by
    unfold borderClamp
    rw [min_eq_right (by push_cast; norm_num), max_eq_right (by norm_num)]
  rw [hbx, hby, floor_one_add off h0 h1, Int.floor_one]
  simp [colBatch]

theorem sin_track_lit_pos : 0 < Real.sin (18.8496 : ℝ) := by
  have hlt : Real.pi < 3.141593 := Real.pi_lt_d6
  have hgt : 3.141592 < Real.pi := Real.pi_gt_d6
  have h := Real.sin_add_nat_mul_two_pi (18.8496 - 3 * (2 * Real.pi)) 3
  push_cast at h
  rw [sub_add_cancel] at h
  rw [h]
  apply Real.sin_pos_of_pos_of_lt_pi
  · linarith
  · linarith

/-- C6 counterexample: with H = 2, W = 3, tracking 1, the centre pixel of
row 1 of a bright-right-column frame differs from the value the 6π-based
offset of the claim predicts, because `sin(6.2832 * 3.0) > 0 = sin 6π`. -/
theorem vhs_tracking_sixpi_cex :
    vhs_retro 2 3 colBatch zerosBatch 0 100 0 1 0 1 1 0
      ≠ clamp01 (gridSampleBilinear 2 3 (fun yy xx => colBatch 0 yy xx 0)
          (linspace (-1) 1 3 1 + specTrackOffset 2 1 1) (linspace (-1) 1 2 1)) := by
  have hs := sin_track_lit_pos
  have hs1 : Real.sin (18.8496 : ℝ) ≤ 1 := Real.sin_le_one _
  have hoff : trackOffset 2 1 1 = 0.05 * Real.sin 18.8496 := by
    unfold trackOffset
    have hl : linspace (-1) 1 2 1 = 1 := by
      unfold linspace
      norm_num
    rw [hl]
    norm_num
  have hspec : specTrackOffset 2 1 1 = 0 := by
    unfold specTrackOffset
    have hl : linspace (-1) 1 2 1 = 1 := by
      unfold linspace
      norm_num
    have h6 : Real.sin (6 * Real.pi) = 0 := by
      have h := Real.sin_nat_mul_pi 6
      push_cast at h
      exact h
    rw [hl, one_mul (6 * Real.pi), h6]
    ring
  have hL : vhs_retro 2 3 colBatch zerosBatch 0 100 0 1 0 1 1 0
      = clamp01 (gridSampleBilinear 2 3 (fun yy xx => colBatch 0 yy xx 0)
          (linspace (-1) 1 3 1 + trackOffset 2 1 1) (linspace (-1) 1 2 1)) := by
    simp only [vhs_retro]
    rw [if_pos (show (0 : ℝ) < 1 by norm_num), if_neg (lt_irrefl (0 : ℝ)),
      if_neg (show ¬((0 : ℝ) < 0 ∧ 0 < 100) from fun hco => lt_irrefl (0 : ℝ) hco.1)]
  rw [hL, hoff, hspec,
    gridSample_colBatch (0.05 * Real.sin 18.8496) (by linarith) (by linarith),
    gridSample_colBatch 0 le_rfl (by norm_num),
    clamp01_of_mem _ (by linarith) (by linarith), clamp01_of_mem 0 le_rfl (by norm_num)]
  positivity

/-! Warhol screen-print effect, src/scope_vfx/effects/warhol.py. -/

/-- The palette table `_PALETTE_DATA`: 6 curated palettes of 8 RGB
colours each, ordered dark to light, as exact rationals. -/
def PALETTE_DATA : List (List (ℚ × ℚ × ℚ)) :=
  [[(0.06, 0.03, 0.08), (0.38, 0.06, 0.44), (0.90, 0.10, 0.55), (0.98, 0.42, 0.10),
    (0.99, 0.90, 0.06), (0.05, 0.80, 0.78), (0.25, 0.95, 0.55), (0.98, 0.96, 0.86)],
   [(0.02, 0.02, 0.09), (0.30, 0.00, 0.85), (0.96, 0.00, 0.62), (0.10, 0.98, 0.22),
    (0.00, 0.70, 1.00), (1.00, 0.96, 0.05), (1.00, 0.45, 0.00), (0.98, 0.90, 0.96)],
   [(0.05, 0.05, 0.06), (0.22, 0.16, 0.55), (0.55, 0.10, 0.10), (0.98, 0.84, 0.05),
    (0.95, 0.55, 0.05), (0.10, 0.75, 0.65), (0.70, 0.95, 0.15), (0.98, 0.96, 0.88)],
   [(0.05, 0.05, 0.06), (0.55, 0.00, 0.10), (0.95, 0.05, 0.08), (0.98, 0.78, 0.06),
    (0.05, 0.40, 0.95), (0.95, 0.95, 0.92), (0.80, 0.80, 0.78), (0.99, 0.98, 0.90)],
   [(0.06, 0.04, 0.03), (0.10, 0.25, 0.75), (0.85, 0.05, 0.08), (0.98, 0.85, 0.05),
    (0.00, 0.65, 0.55), (0.98, 0.55, 0.12), (0.95, 0.82, 0.70), (0.99, 0.97, 0.88)],
   [(0.03, 0.06, 0.05), (0.00, 0.55, 0.20), (0.65, 0.98, 0.05), (0.05, 0.70, 1.00),
    (0.98, 0.20, 0.55), (0.98, 0.55, 0.05), (1.00, 0.90, 0.08), (0.99, 0.95, 0.88)]]

/-- Channel projection of an RGB triple. -/
def tripleChan (tr : ℚ × ℚ × ℚ) (c : ℕ) : ℚ :=
  match c with
  | 0 => tr.1
  | 1 => tr.2.1
  | _ => tr.2.2

/-- Palette lookup `_PALETTES[p][i]`, channel `c`, as a real value.
Out-of-range indices give the zero colour; the source only gathers
in-range rows (see `warholIndexOk`). -/
noncomputable def palChan (p i c : ℕ) : ℝ :=
  ((tripleChan ((PALETTE_DATA.getD p []).getD i (0, 0, 0)) c : ℚ) : ℝ)

/-- Unnormalized Gaussian tap `exp(-0.5 * ((i - 2) / 1.5)^2)` of the
5-tap kernel built by `_gaussian_blur_nchw` (kernel_size 5, sigma 1.5,
`coords = arange(5) - 2`). -/
noncomputable def gKer (i : ℕ) : ℝ := Real.exp (-(0.5) * (((i : ℝ) - 2) / 1.5) ^ 2)

/-- Kernel normalizer `g.sum()`. -/
noncomputable def gSum : ℝ := gKer 0 + gKer 1 + gKer 2 + gKer 3 + gKer 4

/-- Normalized Gaussian weight `g / g.sum()`. -/
noncomputable def gW (i : ℕ) : ℝ := gKer i / gSum

/-- Replicate padding (`F.pad(·, mode="replicate")`): clamp an integer
position into `[0, n - 1]`. -/
def padIdx (n : ℕ) (j : ℤ) : ℕ := (max 0 (min ((n : ℤ) - 1) j)).toNat

/-- Horizontal pass of the separable Gaussian blur. -/
noncomputable def blurH (W : ℕ) (img : ℕ → ℕ → ℝ) (y x : ℕ) : ℝ :=
  gW 0 * img y (padIdx W ((x : ℤ) - 2)) + gW 1 * img y (padIdx W ((x : ℤ) - 1))
    + gW 2 * img y (padIdx W (x : ℤ)) + gW 3 * img y (padIdx W ((x : ℤ) + 1))
    + gW 4 * img y (padIdx W ((x : ℤ) + 2))

/-- Vertical pass of the separable Gaussian blur. -/
noncomputable def blurV (H : ℕ) (img : ℕ → ℕ → ℝ) (y x : ℕ) : ℝ :=
  gW 0 * img (padIdx H ((y : ℤ) - 2)) x + gW 1 * img (padIdx H ((y : ℤ) - 1)) x
    + gW 2 * img (padIdx H (y : ℤ)) x + gW 3 * img (padIdx H ((y : ℤ) + 1)) x
    + gW 4 * img (padIdx H ((y : ℤ) + 2)) x

/-- `_gaussian_blur_nchw` on one channel plane: horizontal then vertical
pass with replicate padding. -/
noncomputable def gaussianBlur (H W : ℕ) (img : ℕ → ℕ → ℝ) (y x : ℕ) : ℝ :=
  blurV H (blurH W img) y x

/-- The luminance plane `warhol` derives from the blurred channels:
`0.299 * blur(R) + 0.587 * blur(G) + 0.114 * blur(B)`. -/
noncomputable def blurLuma (H W : ℕ) (frames : Batch) (t y x : ℕ) : ℝ :=
  0.299 * gaussianBlur H W (fun yy xx => frames t yy xx 0) y x
    + 0.587 * gaussianBlur H W (fun yy xx => frames t yy xx 1) y x
    + 0.114 * gaussianBlur H W (fun yy xx => frames t yy xx 2) y x

/-- The Gaussian-blurred BT.601 luminance: blur applied to the
luminance of the raw channels.  By linearity of the blur this equals
`blurLuma` (see `blurOfLuma_eq_blurLuma`). -/
noncomputable def blurOfLuma (H W : ℕ) (frames : Batch) (t y x : ℕ) : ℝ :=
  gaussianBlur H W
    (fun yy xx => 0.299 * frames t yy xx 0 + 0.587 * frames t yy xx 1
      + 0.114 * frames t yy xx 2) y x

/-- Horizontal Sobel response of `_sobel_edges` with one-pixel replicate
padding; kernel `[[-1,0,1],[-2,0,2],[-1,0,1]]` as cross-correlation. -/
noncomputable def sobelGx (H W : ℕ) (L : ℕ → ℕ → ℝ) (y x : ℕ) : ℝ :=
  (-1) * L (padIdx H ((y : ℤ) - 1)) (padIdx W ((x : ℤ) - 1))
    + 0 * L (padIdx H ((y : ℤ) - 1)) (padIdx W (x : ℤ))
    + 1 * L (padIdx H ((y : ℤ) - 1)) (padIdx W ((x : ℤ) + 1))
    + (-2) * L (padIdx H (y : ℤ)) (padIdx W ((x : ℤ) - 1))
    + 0 * L (padIdx H (y : ℤ)) (padIdx W (x : ℤ))
    + 2 * L (padIdx H (y : ℤ)) (padIdx W ((x : ℤ) + 1))
    + (-1) * L (padIdx H ((y : ℤ) + 1)) (padIdx W ((x : ℤ) - 1))
    + 0 * L (padIdx H ((y : ℤ) + 1)) (padIdx W (x : ℤ))
    + 1 * L (padIdx H ((y : ℤ) + 1)) (padIdx W ((x : ℤ) + 1))

/-- Vertical Sobel response; kernel `[[-1,-2,-1],[0,0,0],[1,2,1]]`. -/
noncomputable def sobelGy (H W : ℕ) (L : ℕ → ℕ → ℝ) (y x : ℕ) : ℝ :=
  (-1) * L (padIdx H ((y : ℤ) - 1)) (padIdx W ((x : ℤ) - 1))
    + (-2) * L (padIdx H ((y : ℤ) - 1)) (padIdx W (x : ℤ))
    + (-1) * L (padIdx H ((y : ℤ) - 1)) (padIdx W ((x : ℤ) + 1))
    + 0 * L (padIdx H (y : ℤ)) (padIdx W ((x : ℤ) - 1))
    + 0 * L (padIdx H (y : ℤ)) (padIdx W (x : ℤ))
    + 0 * L (padIdx H (y : ℤ)) (padIdx W ((x : ℤ) + 1))
    + 1 * L (padIdx H ((y : ℤ) + 1)) (padIdx W ((x : ℤ) - 1))
    + 2 * L (padIdx H ((y : ℤ) + 1)) (padIdx W (x : ℤ))
    + 1 * L (padIdx H ((y : ℤ) + 1)) (padIdx W ((x : ℤ) + 1))

/-- Sobel gradient magnitude `sqrt(gx*gx + gy*gy)`. -/
noncomputable def sobelMag (H W : ℕ) (L : ℕ → ℕ → ℝ) (y x : ℕ) : ℝ :=
  Real.sqrt (sobelGx H W L y x * sobelGx H W L y x + sobelGy H W L y x * sobelGy H W L y x)

/-- Maximum of a list of reals, 0 when empty.  The edge magnitudes it is
applied to are nonnegative, so this agrees with the tensor `max`. -/
noncomputable def listMax : List ℝ → ℝ
  | [] => 0
  | a :: l => max a (listMax l)

/-- Per-frame normalizer
`edge_mag.flatten(1).max(dim=1).values.clamp(min=1e-5)`. -/
noncomputable def eMax (H W : ℕ) (frames : Batch) (t : ℕ) : ℝ :=
  max 1e-5 (listMax ((List.range H).map fun yy =>
    listMax ((List.range W).map fun xx =>
      sobelMag H W (blurLuma H W frames t) yy xx)))

/-- Normalized edge strength `edge_mag / e_max`. -/
noncomputable def edgeNorm (H W : ℕ) (frames : Batch) (t y x : ℕ) : ℝ :=
  sobelMag H W (blurLuma H W frames t) y x / eMax H W frames t

/-- Binary ink mask before dilation: `(edge_norm > edge_thresh).float()`. -/
noncomputable def inkHard (H W : ℕ) (frames : Batch) (edge_thresh : ℝ) (t y x : ℕ) : ℝ :=
  if edge_thresh < edgeNorm H W frames t y x then 1 else 0

/-- The hard mask read at an integer position, 0 outside the frame:
`F.max_pool2d(padding=1)` pads with the minimal value, which for the
nonnegative mask is equivalent to padding with 0. -/
noncomputable def inkAt (H W : ℕ) (frames : Batch) (edge_thresh : ℝ) (t : ℕ) (j i : ℤ) : ℝ :=
  if 0 ≤ j ∧ j < H ∧ 0 ≤ i ∧ i < W then inkHard H W frames edge_thresh t j.toNat i.toNat
  else 0

/-- Dilated ink mask: `F.max_pool2d(ink_mask, 3, stride=1, padding=1)`,
the 3×3 maximum around each pixel. -/
noncomputable def inkDil (H W : ℕ) (frames : Batch) (edge_thresh : ℝ) (t y x : ℕ) : ℝ :=
  max (max (max (max (max (max (max (max
    (inkAt H W frames edge_thresh t ((y : ℤ) - 1) ((x : ℤ) - 1))
    (inkAt H W frames edge_thresh t ((y : ℤ) - 1) (x : ℤ)))
    (inkAt H W frames edge_thresh t ((y : ℤ) - 1) ((x : ℤ) + 1)))
    (inkAt H W frames edge_thresh t (y : ℤ) ((x : ℤ) - 1)))
    (inkAt H W frames edge_thresh t (y : ℤ) (x : ℤ)))
    (inkAt H W frames edge_thresh t (y : ℤ) ((x : ℤ) + 1)))
    (inkAt H W frames edge_thresh t ((y : ℤ) + 1) ((x : ℤ) - 1)))
    (inkAt H W frames edge_thresh t ((y : ℤ) + 1) (x : ℤ)))
    (inkAt H W frames edge_thresh t ((y : ℤ) + 1) ((x : ℤ) + 1))

/-- Number of colour levels `n_levels = max(int(posterize), 2)`. -/
def nLevels (posterize : ℤ) : ℕ := (max posterize 2).toNat

/-- Posterized band index
`(luma * (n_levels - 1)).round().long().clamp(0, n_levels - 1)`. -/
noncomputable def bandIdx (H W : ℕ) (frames : Batch) (posterize : ℤ) (t y x : ℕ) : ℕ :=
  (min ((nLevels posterize : ℤ) - 1)
    (max 0 (roundHalfEven (blurLuma H W frames t y x * ((nLevels posterize : ℝ) - 1))))).toNat

/-- Clamped palette index `max(0, min(int(palette), 5))`. -/
def palClamp (palette : ℤ) : ℕ := (max 0 (min palette 5)).toNat

/-- Colour sub-sampling index for fewer than 8 levels:
`torch.linspace(0, 7, n_levels).long()` — the `.long()` cast truncates,
so this is the floor of the evenly spaced position. -/
noncomputable def sampleIdx (n i : ℕ) : ℕ := (⌊linspace 0 7 n i⌋).toNat

/-- The `i`-th selected colour (channel `c`) for `n` levels: the first
(at most 8) palette rows when `n ≥ 8`, the sub-sampled rows otherwise. -/
noncomputable def colourAt (palette : ℤ) (n i c : ℕ) : ℝ :=
  if 8 ≤ n then palChan (palClamp palette) i c
  else palChan (palClamp palette) (sampleIdx n i) c

/-- `warhol` from src/scope_vfx/effects/warhol.py: posterize the blurred
luminance, remap each pixel to the selected colour at its band index,
darken by the dilated ink mask when `ink > 0`, and clamp to [0, 1]. -/
noncomputable def warhol (H W : ℕ) (frames : Batch) (palette posterize : ℤ)
    (ink edge_thresh : ℝ) : Batch :=
  fun t y x c =>
    let res := colourAt palette (nLevels posterize) (bandIdx H W frames posterize t y x) c
    clamp01 (if 0 < ink then res * (1 - ink * inkDil H W frames edge_thresh t y x) else res)

/-- The tensor gather `colours[flat_idx]` in `warhol` requires every band
index to be below `colours.size(0) = min(n_levels, 8)`; an out-of-range
index raises an indexing error in the source.  This predicate states
that requirement for a batch of shape (T, H, W). -/
def warholIndexOk (T H W : ℕ) (frames : Batch) (posterize : ℤ) : Prop :=
  ∀ t < T, ∀ y < H, ∀ x < W,
    bandIdx H W frames posterize t y x < min (nLevels posterize) 8

/-- Colour sub-sampling index as the claim words it: rounding the evenly
spaced position `linspace(0,7,n)[i]` instead of the source's truncating
`.long()` cast. -/
noncomputable def specSampleIdx (n i : ℕ) : ℕ := (roundHalfEven (linspace 0 7 n i)).toNat

/-- Selected colour under the claim's rounding-based sub-sampling. -/
noncomputable def specColourAt (palette : ℤ) (n i c : ℕ) : ℝ :=
  if 8 ≤ n then palChan (palClamp palette) i c
  else palChan (palClamp palette) (specSampleIdx n i) c

/-! Support lemmas for the Warhol effect. -/

/-- A colour triple with every channel in [0, 1]. -/
def tripleOK (tr : ℚ × ℚ × ℚ) : Prop :=
  0 ≤ tr.1 ∧ tr.1 ≤ 1 ∧ 0 ≤ tr.2.1 ∧ tr.2.1 ≤ 1 ∧ 0 ≤ tr.2.2 ∧ tr.2.2 ≤ 1

set_option maxHeartbeats 1000000 in
theorem palette_entries_ok : ∀ l ∈ PALETTE_DATA, ∀ tr ∈ l, tripleOK tr := by
  intro l hl tr htr
  fin_cases hl <;> fin_cases htr <;> norm_num [tripleOK]

theorem tripleOK_chan {tr : ℚ × ℚ × ℚ} (h : tripleOK tr) (c : ℕ) :
    0 ≤ tripleChan tr c ∧ tripleChan tr c ≤ 1 := by
  obtain ⟨h1, h2, h3, h4, h5, h6⟩ := h
  rcases c with _ | _ | c
  · exact ⟨h1, h2⟩
  · exact ⟨h3, h4⟩
  · exact ⟨h5, h6⟩

theorem getD_mem_or_eq {α : Type} (l : List α) (n : ℕ) (d : α) :
    l.getD n d ∈ l ∨ l.getD n d = d := by
  rcases Nat.lt_or_ge n l.length with h | h
  · left
    rw [List.getD_eq_getElem l d h]
    exact l.getElem_mem h
  · right
    exact List.getD_eq_default l d h

theorem palChan_bounds (p i c : ℕ) : 0 ≤ palChan p i c ∧ palChan p i c ≤ 1 := by
  unfold palChan
  have hq : tripleOK ((PALETTE_DATA.getD p []).getD i (0, 0, 0)) := by
    rcases getD_mem_or_eq (PALETTE_DATA.getD p []) i (0, 0, 0) with htr | htr
    · rcases getD_mem_or_eq PALETTE_DATA p [] with hl | hl
      · exact palette_entries_ok _ hl _ htr
      · rw [hl] at htr
        cases htr
    · rw [htr]
      norm_num [tripleOK]
  have h := tripleOK_chan hq c
  constructor
  · exact_mod_cast h.1
  · exact_mod_cast h.2

theorem clamp01_palChan (p i c : ℕ) : clamp01 (palChan p i c) = palChan p i c :=
  clamp01_of_mem _ (palChan_bounds p i c).1 (palChan_bounds p i c).2

theorem clamp01_colourAt (palette : ℤ) (n i c : ℕ) :
    clamp01 (colourAt palette n i c) = colourAt palette n i c := by
  unfold colourAt
  split_ifs
  · exact clamp01_palChan _ _ _
  · exact clamp01_palChan _ _ _

theorem gSum_pos : 0 < gSum := by
  unfold gSum gKer
  positivity

theorem gW_sum : gW 0 + gW 1 + gW 2 + gW 3 + gW 4 = 1 := by
  unfold gW
  rw [div_add_div_same, div_add_div_same, div_add_div_same, div_add_div_same]
  exact div_self gSum_pos.ne'

theorem blurH_const (W : ℕ) (v : ℝ) : blurH W (fun _ _ => v) = fun _ _ => v := by
  funext y x
  show gW 0 * v + gW 1 * v + gW 2 * v + gW 3 * v + gW 4 * v = v
  linear_combination v * gW_sum

theorem blurV_const (H : ℕ) (v : ℝ) : blurV H (fun _ _ => v) = fun _ _ => v := by
  funext y x
  show gW 0 * v + gW 1 * v + gW 2 * v + gW 3 * v + gW 4 * v = v
  linear_combination v * gW_sum

theorem gaussianBlur_const (H W : ℕ) (v : ℝ) (y x : ℕ) :
    gaussianBlur H W (fun _ _ => v) y x = v := by
  unfold gaussianBlur
  rw [blurH_const W v, blurV_const H v]

theorem blurLuma_flat (H W : ℕ) (frames : Batch) (vals : ℕ → ℕ → ℝ)
    (hflat : ∀ t y x c, frames t y x c = vals t c) (t y x : ℕ) :
    blurLuma H W frames t y x
      = 0.299 * vals t 0 + 0.587 * vals t 1 + 0.114 * vals t 2 := by
  unfold blurLuma
  rw [show (fun yy xx => frames t yy xx 0) = fun _ _ => vals t 0 from
      funext fun yy => funext fun xx => hflat t yy xx 0,
    show (fun yy xx => frames t yy xx 1) = fun _ _ => vals t 1 from
      funext fun yy => funext fun xx => hflat t yy xx 1,
    show (fun yy xx => frames t yy xx 2) = fun _ _ => vals t 2 from
      funext fun yy => funext fun xx => hflat t yy xx 2,
    gaussianBlur_const, gaussianBlur_const, gaussianBlur_const]

theorem roundHalfEven_intCast (z : ℤ) : roundHalfEven ((z : ℝ)) = z := by
  unfold roundHalfEven
  rw [Int.floor_intCast, if_neg (by norm_num)]
  simp

theorem floor_seven_halves : ⌊(7 / 2 : ℝ)⌋ = 3 := by
  rw [Int.floor_eq_iff]
  constructor
  · norm_num
  · norm_num

theorem roundHalfEven_seven_halves : roundHalfEven (7 / 2 : ℝ) = 4 := by
  unfold roundHalfEven
  rw [floor_seven_halves, if_pos (by norm_num), if_neg (by norm_num)]
  norm_num

theorem two_le_nLevels (posterize : ℤ) : 2 ≤ nLevels posterize := by
  unfold nLevels
  omega

theorem bandIdx_lt (H W : ℕ) (frames : Batch) (posterize : ℤ) (t y x : ℕ) :
    bandIdx H W frames posterize t y x < nLevels posterize := by
  have h2 := two_le_nLevels posterize
  unfold bandIdx
  omega

/-- C2 (amended): for `2 ≤ posterize ≤ 8` and `ink = 0` every output
pixel of `warhol` is exactly the selected colour at the pixel's band
index, where for fewer than 8 levels the selected colours sit at the
truncated — not rounded — evenly spaced palette indices
`floor(linspace(0,7,n))`.  The band index is always below
`n = max(posterize, 2)`, so at most `n` distinct colours appear.
(The posterize bound keeps every palette gather in range; beyond it the
source can fault, see the C7 development.) -/
theorem warhol_palette_lookup (H W : ℕ) (frames : Batch) (palette posterize : ℤ)
    (hp2 : 2 ≤ posterize) (hp8 : posterize ≤ 8)
    (edge_thresh : ℝ) (t y x c : ℕ) :
    warhol H W frames palette posterize 0 edge_thresh t y x c
      = colourAt palette (nLevels posterize) (bandIdx H W frames posterize t y x) c
    ∧ bandIdx H W frames posterize t y x < nLevels posterize
    ∧ ∃ i, i < nLevels posterize ∧
        warhol H W frames palette posterize 0 edge_thresh t y x c
          = colourAt palette (nLevels posterize) i c := by
  have heq : warhol H W frames palette posterize 0 edge_thresh t y x c
      = colourAt palette (nLevels posterize) (bandIdx H W frames posterize t y x) c := by
    simp only [warhol]
    rw [if_neg (lt_irrefl (0 : ℝ))]
    exact clamp01_colourAt _ _ _ _
  exact ⟨heq, bandIdx_lt H W frames posterize t y x,
    ⟨bandIdx H W frames posterize t y x, bandIdx_lt H W frames posterize t y x, heq⟩⟩

/-- Witness for C2 (amended) at posterize 4 on a 1×1 zero batch. -/
theorem warhol_palette_lookup_witness :
    (2 : ℤ) ≤ 4 ∧ (4 : ℤ) ≤ 8 ∧
      (warhol 1 1 zerosBatch 0 4 0 0.15 0 0 0 0
        = colourAt 0 (nLevels 4) (bandIdx 1 1 zerosBatch 4 0 0 0) 0
      ∧ bandIdx 1 1 zerosBatch 4 0 0 0 < nLevels 4
      ∧ ∃ i, i < nLevels 4 ∧
          warhol 1 1 zerosBatch 0 4 0 0.15 0 0 0 0 = colourAt 0 (nLevels 4) i 0) :=
  ⟨by norm_num, by norm_num,
   warhol_palette_lookup 1 1 zerosBatch 0 4 (by norm_num) (by norm_num) 0.15 0 0 0 0⟩

/-- The constant mid-gray batch. -/
def halfBatch : Batch := fun _ _ _ _ => 0.5

/-- On a 1×1 mid-gray frame with palette 0, posterize 3 and ink 0,
`warhol` outputs palette row 3 on every channel: the blurred luminance
is 0.5, the band index is 1, and the truncating sub-sample maps band 1
to `floor(3.5) = 3`. -/
theorem warhol_halfBatch_value (c : ℕ) :
    warhol 1 1 halfBatch 0 3 0 0.15 0 0 0 c = palChan 0 3 c := by
  have hluma : blurLuma 1 1 halfBatch 0 0 0 = 0.5 := by
    rw [blurLuma_flat 1 1 halfBatch (fun _ _ => 0.5) (fun _ _ _ _ => rfl) 0 0 0]
    norm_num
  have hn : nLevels 3 = 3 := by decide
  have hband : bandIdx 1 1 halfBatch 3 0 0 0 = 1 := by
    unfold bandIdx
    rw [hn, hluma]
    rw [show (0.5 : ℝ) * (((3 : ℕ) : ℝ) - 1) = ((1 : ℤ) : ℝ) by push_cast; norm_num]
    rw [roundHalfEven_intCast]
    decide
  have hsi : sampleIdx 3 1 = 3 := by
    unfold sampleIdx
    rw [show linspace 0 7 3 1 = 7 / 2 by unfold linspace; norm_num]
    rw [floor_seven_halves]
    rfl
  simp only [warhol]
  rw [if_neg (lt_irrefl (0 : ℝ)), hband, hn]
  unfold colourAt
  rw [if_neg (by norm_num), hsi, show palClamp 0 = 0 by decide]
  exact clamp01_palChan 0 3 c

/-- C2 counterexample: on a 1×1 mid-gray frame with palette 0,
posterize 3 and ink 0, the output pixel (palette row 3, from the
truncating `.long()` cast of `linspace(0,7,3) = [0, 3.5, 7]`) matches
none of the three colours the claim's `round(linspace(0,7,3))`
selection admits (palette rows 0, 4 and 7). -/
theorem warhol_round_sample_cex :
    ¬ ∃ i, i < nLevels 3 ∧ ∀ c < 3,
      warhol 1 1 halfBatch 0 3 0 0.15 0 0 0 c = specColourAt 0 (nLevels 3) i c := by
  rintro ⟨i, hi, hall⟩
  have h1 := hall 1 (by norm_num)
  rw [warhol_halfBatch_value 1] at h1
  have hn : nLevels 3 = 3 := by decide
  rw [hn] at hi h1
  rw [show palChan 0 3 1 = 0.42 by
    norm_num [palChan, PALETTE_DATA, tripleChan, List.getD_cons_zero, List.getD_cons_succ]] at h1
  have hs0 : specSampleIdx 3 0 = 0 := by
    unfold specSampleIdx
    rw [show linspace 0 7 3 0 = ((0 : ℤ) : ℝ) by unfold linspace; norm_num]
    rw [roundHalfEven_intCast]
    rfl
  have hs1 : specSampleIdx 3 1 = 4 := by
    unfold specSampleIdx
    rw [show linspace 0 7 3 1 = 7 / 2 by unfold linspace; norm_num]
    rw [roundHalfEven_seven_halves]
    rfl
  have hs2 : specSampleIdx 3 2 = 7 := by
    unfold specSampleIdx
    rw [show linspace 0 7 3 2 = ((7 : ℤ) : ℝ) by unfold linspace; norm_num]
    rw [roundHalfEven_intCast]
    rfl
  interval_cases i
  · unfold specColourAt at h1
    rw [if_neg (by norm_num), hs0, show palClamp 0 = 0 by decide] at h1
    norm_num [palChan, PALETTE_DATA, tripleChan, List.getD_cons_zero, List.getD_cons_succ] at h1
  · unfold specColourAt at h1
    rw [if_neg (by norm_num), hs1, show palClamp 0 = 0 by decide] at h1
    norm_num [palChan, PALETTE_DATA, tripleChan, List.getD_cons_zero, List.getD_cons_succ] at h1
  · unfold specColourAt at h1
    rw [if_neg (by norm_num), hs2, show palClamp 0 = 0 by decide] at h1
    norm_num [palChan, PALETTE_DATA, tripleChan, List.getD_cons_zero, List.getD_cons_succ] at h1

/-- C7 (amended): when `n = max(posterize, 2) ≥ 8` the selected colour
table is the first (at most 8) palette rows, and with `ink = 0` every
pixel is remapped to the colour at its band index.  The tensor gather —
and hence the call — succeeds exactly when every band index stays below
the 8 available rows; at the documented cap `posterize = 8` that always
holds, but for larger posterize values it can fail (see the
counterexample). -/
theorem warhol_levels_ge8 (T H W : ℕ) (frames : Batch) (palette posterize : ℤ)
    (edge_thresh : ℝ) (h8 : 8 ≤ nLevels posterize) :
    (∀ i c, colourAt palette (nLevels posterize) i c = palChan (palClamp palette) i c)
    ∧ (posterize = 8 → warholIndexOk T H W frames posterize)
    ∧ (∀ t y x c, warhol H W frames palette posterize 0 edge_thresh t y x c
        = palChan (palClamp palette) (bandIdx H W frames posterize t y x) c) := by
  refine ⟨fun i c => ?_, fun hp => ?_, fun t y x c => ?_⟩
  · unfold colourAt
    rw [if_pos h8]
  · intro t ht y hy x hx
    have hn8 : nLevels posterize = 8 := by
      rw [hp]
      decide
    unfold bandIdx
    rw [hn8]
    omega
  · simp only [warhol]
    rw [if_neg (lt_irrefl (0 : ℝ))]
    unfold colourAt
    rw [if_pos h8]
    exact clamp01_palChan _ _ _

/-- Witness for C7 (amended) at `posterize = 8` on a 1×1 zero batch. -/
theorem warhol_levels_ge8_witness :
    8 ≤ nLevels 8 ∧
      ((∀ i c, colourAt 0 (nLevels 8) i c = palChan (palClamp 0) i c)
        ∧ ((8 : ℤ) = 8 → warholIndexOk 1 1 1 zerosBatch 8)
        ∧ (∀ t y x c, warhol 1 1 zerosBatch 0 8 0 0.15 t y x c
            = palChan (palClamp 0) (bandIdx 1 1 zerosBatch 8 t y x) c)) :=
  ⟨by decide, warhol_levels_ge8 1 1 1 zerosBatch 0 8 0.15 (by decide)⟩

/-- C7 counterexample: at `posterize = 9` on a 1×1 all-white frame the
band index reaches 8 while only 8 colour rows exist, so the gather
`colours[flat_idx]` is out of bounds and the source raises. -/
theorem warhol_posterize_nine_unsafe : ¬ warholIndexOk 1 1 1 onesBatch 9 := by
  intro hok
  have h := hok 0 (by norm_num) 0 (by norm_num) 0 (by norm_num)
  have hluma : blurLuma 1 1 onesBatch 0 0 0 = 1 := by
    rw [blurLuma_flat 1 1 onesBatch (fun _ _ => 1) (fun _ _ _ _ => rfl) 0 0 0]
    norm_num
  have hn : nLevels 9 = 9 := by decide
  have hband : bandIdx 1 1 onesBatch 9 0 0 0 = 8 := by
    unfold bandIdx
    rw [hn, hluma]
    rw [show (1 : ℝ) * (((9 : ℕ) : ℝ) - 1) = ((8 : ℤ) : ℝ) by push_cast; norm_num]
    rw [roundHalfEven_intCast]
    decide
  rw [hband, hn] at h
  omega

theorem sobelGx_const (H W : ℕ) (v : ℝ) (y x : ℕ) :
    sobelGx H W (fun _ _ => v) y x = 0 := by
  unfold sobelGx
  ring

theorem sobelGy_const (H W : ℕ) (v : ℝ) (y x : ℕ) :
    sobelGy H W (fun _ _ => v) y x = 0 := by
  unfold sobelGy
  ring

theorem sobelMag_const (H W : ℕ) (v : ℝ) (y x : ℕ) :
    sobelMag H W (fun _ _ => v) y x = 0 := by
  unfold sobelMag
  rw [sobelGx_const, sobelGy_const, show (0 : ℝ) * 0 + 0 * 0 = 0 by ring, Real.sqrt_zero]

/-- C8: the per-frame edge normalizer is bounded below by the positive
guard 1e-5 (so the division cannot be by zero), and on a flat frame —
constant per frame and channel — with a nonnegative threshold the
dilated ink mask is identically zero. -/
theorem warhol_flat_frame_safe (H W : ℕ) (frames : Batch) (vals : ℕ → ℕ → ℝ)
    (hflat : ∀ t y x c, frames t y x c = vals t c) (edge_thresh : ℝ)
    (hth : 0 ≤ edge_thresh) (t y x : ℕ) :
    1e-5 ≤ eMax H W frames t ∧ inkDil H W frames edge_thresh t y x = 0 := by
  have hLconst : blurLuma H W frames t = fun _ _ =>
      0.299 * vals t 0 + 0.587 * vals t 1 + 0.114 * vals t 2 :=
    funext fun yy => funext fun xx => blurLuma_flat H W frames vals hflat t yy xx
  have hink : ∀ yy xx : ℕ, inkHard H W frames edge_thresh t yy xx = 0 := by
    intro yy xx
    have hen : edgeNorm H W frames t yy xx = 0 := by
      unfold edgeNorm
      rw [hLconst, sobelMag_const, zero_div]
    unfold inkHard
    rw [hen, if_neg (not_lt.mpr hth)]
  have hAt : ∀ j i : ℤ, inkAt H W frames edge_thresh t j i = 0 := by
    intro j i
    unfold inkAt
    split_ifs
    · exact hink _ _
    · rfl
  constructor
  · exact le_max_left _ _
  · unfold inkDil
    rw [hAt, hAt, hAt, hAt, hAt, hAt, hAt, hAt, hAt]
    norm_num

/-- Witness for C8 on a 1×1 all-zero frame. -/
theorem warhol_flat_frame_safe_witness :
    (∀ t y x c, zerosBatch t y x c = (fun _ _ => (0 : ℝ)) t c) ∧ (0 : ℝ) ≤ 0.15 ∧
      (1e-5 ≤ eMax 1 1 zerosBatch 0 ∧ inkDil 1 1 zerosBatch 0.15 0 0 0 = 0) :=
  ⟨fun _ _ _ _ => rfl, by norm_num,
   warhol_flat_frame_safe 1 1 zerosBatch (fun _ _ => 0) (fun _ _ _ _ => rfl) 0.15
     (by norm_num) 0 0 0⟩

/-! Congruence chain for C10: everything `warhol` computes depends on
the input only through the blurred luminance at in-range pixels. -/

theorem blurOfLuma_eq_blurLuma (H W : ℕ) (frames : Batch) (t y x : ℕ) :
    blurOfLuma H W frames t y x = blurLuma H W frames t y x := by
  unfold blurOfLuma blurLuma gaussianBlur blurV blurH
  simp only []
  ring

theorem padIdx_lt (n : ℕ) (hn : 0 < n) (j : ℤ) : padIdx n j < n := by
  unfold padIdx
  omega

theorem sobelGx_congr (H W : ℕ) (hH : 0 < H) (hW : 0 < W) (L1 L2 : ℕ → ℕ → ℝ)
    (h : ∀ yy < H, ∀ xx < W, L1 yy xx = L2 yy xx) (y x : ℕ) :
    sobelGx H W L1 y x = sobelGx H W L2 y x := by
  unfold sobelGx
  rw [h _ (padIdx_lt H hH _) _ (padIdx_lt W hW _), h _ (padIdx_lt H hH _) _ (padIdx_lt W hW _),
    h _ (padIdx_lt H hH _) _ (padIdx_lt W hW _), h _ (padIdx_lt H hH _) _ (padIdx_lt W hW _),
    h _ (padIdx_lt H hH _) _ (padIdx_lt W hW _), h _ (padIdx_lt H hH _) _ (padIdx_lt W hW _),
    h _ (padIdx_lt H hH _) _ (padIdx_lt W hW _), h _ (padIdx_lt H hH _) _ (padIdx_lt W hW _),
    h _ (padIdx_lt H hH _) _ (padIdx_lt W hW _)]

theorem sobelGy_congr (H W : ℕ) (hH : 0 < H) (hW : 0 < W) (L1 L2 : ℕ → ℕ → ℝ)
    (h : ∀ yy < H, ∀ xx < W, L1 yy xx = L2 yy xx) (y x : ℕ) :
    sobelGy H W L1 y x = sobelGy H W L2 y x := by
  unfold sobelGy
  rw [h _ (padIdx_lt H hH _) _ (padIdx_lt W hW _), h _ (padIdx_lt H hH _) _ (padIdx_lt W hW _),
    h _ (padIdx_lt H hH _) _ (padIdx_lt W hW _), h _ (padIdx_lt H hH _) _ (padIdx_lt W hW _),
    h _ (padIdx_lt H hH _) _ (padIdx_lt W hW _), h _ (padIdx_lt H hH _) _ (padIdx_lt W hW _),
    h _ (padIdx_lt H hH _) _ (padIdx_lt W hW _), h _ (padIdx_lt H hH _) _ (padIdx_lt W hW _),
    h _ (padIdx_lt H hH _) _ (padIdx_lt W hW _)]

theorem sobelMag_congr (H W : ℕ) (hH : 0 < H) (hW : 0 < W) (L1 L2 : ℕ → ℕ → ℝ)
    (h : ∀ yy < H, ∀ xx < W, L1 yy xx = L2 yy xx) (y x : ℕ) :
    sobelMag H W L1 y x = sobelMag H W L2 y x := by
  unfold sobelMag
  rw [sobelGx_congr H W hH hW L1 L2 h, sobelGy_congr H W hH hW L1 L2 h]

theorem eMax_congr (H W : ℕ) (hH : 0 < H) (hW : 0 < W) (f g : Batch) (t : ℕ)
    (h : ∀ yy < H, ∀ xx < W, blurLuma H W f t yy xx = blurLuma H W g t yy xx) :
    eMax H W f t = eMax H W g t := by
  unfold eMax
  congr 1
  apply congrArg listMax
  apply List.map_congr_left
  intro yy hyy
  apply congrArg listMax
  apply List.map_congr_left
  intro xx hxx
  exact sobelMag_congr H W hH hW _ _ h yy xx

theorem edgeNorm_congr (H W : ℕ) (hH : 0 < H) (hW : 0 < W) (f g : Batch) (t : ℕ)
    (h : ∀ yy < H, ∀ xx < W, blurLuma H W f t yy xx = blurLuma H W g t yy xx) (y x : ℕ) :
    edgeNorm H W f t y x = edgeNorm H W g t y x := by
  unfold edgeNorm
  rw [sobelMag_congr H W hH hW _ _ h, eMax_congr H W hH hW f g t h]

theorem inkHard_congr (H W : ℕ) (hH : 0 < H) (hW : 0 < W) (f g : Batch)
    (edge_thresh : ℝ) (t : ℕ)
    (h : ∀ yy < H, ∀ xx < W, blurLuma H W f t yy xx = blurLuma H W g t yy xx) (y x : ℕ) :
    inkHard H W f edge_thresh t y x = inkHard H W g edge_thresh t y x := by
  unfold inkHard
  rw [edgeNorm_congr H W hH hW f g t h]

theorem inkAt_congr (H W : ℕ) (hH : 0 < H) (hW : 0 < W) (f g : Batch)
    (edge_thresh : ℝ) (t : ℕ)
    (h : ∀ yy < H, ∀ xx < W, blurLuma H W f t yy xx = blurLuma H W g t yy xx) (j i : ℤ) :
    inkAt H W f edge_thresh t j i = inkAt H W g edge_thresh t j i := by
  unfold inkAt
  split_ifs
  · exact inkHard_congr H W hH hW f g edge_thresh t h _ _
  · rfl

theorem inkDil_congr (H W : ℕ) (hH : 0 < H) (hW : 0 < W) (f g : Batch)
    (edge_thresh : ℝ) (t : ℕ)
    (h : ∀ yy < H, ∀ xx < W, blurLuma H W f t yy xx = blurLuma H W g t yy xx) (y x : ℕ) :
    inkDil H W f edge_thresh t y x = inkDil H W g edge_thresh t y x := by
  unfold inkDil
  rw [inkAt_congr H W hH hW f g edge_thresh t h, inkAt_congr H W hH hW f g edge_thresh t h,
    inkAt_congr H W hH hW f g edge_thresh t h, inkAt_congr H W hH hW f g edge_thresh t h,
    inkAt_congr H W hH hW f g edge_thresh t h, inkAt_congr H W hH hW f g edge_thresh t h,
    inkAt_congr H W hH hW f g edge_thresh t h, inkAt_congr H W hH hW f g edge_thresh t h,
    inkAt_congr H W hH hW f g edge_thresh t h]

theorem bandIdx_congr (H W : ℕ) (f g : Batch) (posterize : ℤ) (t y x : ℕ)
    (h : blurLuma H W f t y x = blurLuma H W g t y x) :
    bandIdx H W f posterize t y x = bandIdx H W g posterize t y x := by
  unfold bandIdx
  rw [h]

/-- C10: two input batches whose Gaussian-blurred (kernel 5, sigma 1.5)
BT.601 luminances agree on every in-range pixel produce identical
Warhol outputs under identical parameters: the effect reads its input
only through the blurred luminance, and is a pure function (hence
deterministic across runs). -/
theorem warhol_luma_determined (T H W : ℕ) (hH : 0 < H) (hW : 0 < W) (f g : Batch)
    (hluma : ∀ t < T, ∀ yy < H, ∀ xx < W,
      blurOfLuma H W f t yy xx = blurOfLuma H W g t yy xx)
    (palette posterize : ℤ) (ink edge_thresh : ℝ) (t y x c : ℕ)
    (ht : t < T) (hy : y < H) (hx : x < W) :
    warhol H W f palette posterize ink edge_thresh t y x c
      = warhol H W g palette posterize ink edge_thresh t y x c := by
  have hbl : ∀ yy < H, ∀ xx < W, blurLuma H W f t yy xx = blurLuma H W g t yy xx := by
    intro yy hyy xx hxx
    rw [← blurOfLuma_eq_blurLuma, ← blurOfLuma_eq_blurLuma]
    exact hluma t ht yy hyy xx hxx
  simp only [warhol]
  rw [bandIdx_congr H W f g posterize t y x (hbl y hy x hx),
    inkDil_congr H W hH hW f g edge_thresh t hbl y x]

/-- Witness for C10 on two (identical) 1×1 zero batches. -/
theorem warhol_luma_determined_witness :
    (0 : ℕ) < 1 ∧
      (∀ t < 1, ∀ yy < 1, ∀ xx < 1,
        blurOfLuma 1 1 zerosBatch t yy xx = blurOfLuma 1 1 zerosBatch t yy xx) ∧
      warhol 1 1 zerosBatch 0 4 0.7 0.15 0 0 0 0
        = warhol 1 1 zerosBatch 0 4 0.7 0.15 0 0 0 0 :=
  ⟨by norm_num, fun _ _ _ _ _ _ => rfl,
   warhol_luma_determined 1 1 1 (by norm_num) (by norm_num) zerosBatch zerosBatch
     (fun _ _ _ _ _ _ => rfl) 0 4 0.7 0.15 0 0 0 0 (by norm_num) (by norm_num) (by norm_num)⟩

theorem clamp01_mem (x : ℝ) : 0 ≤ clamp01 x ∧ clamp01 x ≤ 1 := by
  unfold clamp01
  exact ⟨le_max_left 0 _, max_le (by norm_num) (min_le_left 1 x)⟩

/-- C5: on an input batch with every value in [0, 1], each of the three
effects produces values in [0, 1] for every parameter choice:
`vhs_retro` and `warhol` end in a clamp, and `chromatic_aberration`
either aliases the input or permutes its pixel values. -/
theorem effects_preserve_range (H W : ℕ) (f grain : Batch)
    (hf : ∀ t y x c, 0 ≤ f t y x c ∧ f t y x c ≤ 1)
    (intensity angle si : ℝ) (count : ℕ) (noise tracking : ℝ)
    (palette posterize : ℤ) (ink edge_thresh : ℝ) (t y x c : ℕ) :
    (0 ≤ chromatic_aberration H W f intensity angle t y x c
      ∧ chromatic_aberration H W f intensity angle t y x c ≤ 1)
    ∧ (0 ≤ vhs_retro H W f grain si count noise tracking t y x c
      ∧ vhs_retro H W f grain si count noise tracking t y x c ≤ 1)
    ∧ (0 ≤ warhol H W f palette posterize ink edge_thresh t y x c
      ∧ warhol H W f palette posterize ink edge_thresh t y x c ≤ 1) := by
  refine ⟨?_, ?_, ?_⟩
  · rcases chromatic_cases H W f intensity angle with h | ⟨dy, dx, h⟩
    · rw [h]
      exact hf t y x c
    · rw [h]
      simp only [displaceRoll]
      split_ifs
      · exact hf _ _ _ _
      · exact hf _ _ _ _
      · exact hf _ _ _ _
  · simp only [vhs_retro]
    exact clamp01_mem _
  · simp only [warhol]
    exact clamp01_mem _

/-- Witness for C5 on a 1×1 zero batch with the default parameters. -/
theorem effects_preserve_range_witness :
    (∀ t y x c, 0 ≤ zerosBatch t y x c ∧ zerosBatch t y x c ≤ 1) ∧
      ((0 ≤ chromatic_aberration 1 1 zerosBatch 0.3 0 0 0 0 0
        ∧ chromatic_aberration 1 1 zerosBatch 0.3 0 0 0 0 0 ≤ 1)
      ∧ (0 ≤ vhs_retro 1 1 zerosBatch zerosBatch 0.3 100 0.1 0.2 0 0 0 0
        ∧ vhs_retro 1 1 zerosBatch zerosBatch 0.3 100 0.1 0.2 0 0 0 0 ≤ 1)
      ∧ (0 ≤ warhol 1 1 zerosBatch 0 4 0.7 0.15 0 0 0 0
        ∧ warhol 1 1 zerosBatch 0 4 0.7 0.15 0 0 0 0 ≤ 1)) :=
  ⟨fun _ _ _ _ => ⟨le_rfl, by norm_num [zerosBatch]⟩,
   effects_preserve_range 1 1 zerosBatch zerosBatch (fun _ _ _ _ => ⟨le_rfl, by norm_num [zerosBatch]⟩)
     0.3 0 0.3 100 0.1 0.2 0 4 0.7 0.15 0 0 0 0⟩
